import Mathlib

/-!
Verification of the PR-history dataset generator
(`src/model/generate_dataset.py`) against its natural-language
specification.

The Python program merges three timestamped event streams of one pull
request (general comments, review comments, commits) into a single
timeline, and for each commit event with a non-empty diff synthesizes a
training example consisting of a rendered prompt (PR header, previous
commit block, and the comment and review events since the previous commit)
and a completion (the commit diff), enforcing a token budget by truncating
the prompt from its start.

This file is a shallow embedding of that program: Python dictionaries with
optional, possibly-null string fields become `PyStr` values, the event
tuples `(kind, ts, data)` become `Event`, the stable `list.sort(key=ts)`
becomes a stable insertion sort over a lexicographic code-point
comparison, and the per-PR loop over events with its `past` buffer and
emitted rows becomes `runLoop`.  Code paths that raise a Python exception
(calling `.strip()` on `None`, indexing a missing key, `csv.DictWriter`
meeting an unexpected field) are modelled with `Except String`.
-/

/-- A string-valued entry of a Python dict: the key may be absent, the key
may be present with value `None` (JSON null), or it may hold a string. -/
inductive PyStr where
  | absent
  | null
  | str (s : String)
deriving DecidableEq, Repr

namespace PyStr

/-- `d.get(key, dflt)`: an absent key yields the default, a null value
yields Python `None` (here `none`), a string yields itself. -/
def getD (v : PyStr) (dflt : String) : Option String :=
  match v with
  | .absent => some dflt
  | .null => none
  | .str s => some s

/-- `d.get(key)` with no default: absent and null both yield `None`. -/
def get (v : PyStr) : Option String :=
  match v with
  | .absent => none
  | .null => none
  | .str s => some s

end PyStr

/-- Rendering of a Python value inside an f-string: `None` prints as
`"None"`, a string prints as itself. -/
def pyShow (v : Option String) : String := v.getD "None"

/-- Python truthiness of a `str | None` value: `None` and `""` are falsy. -/
def pyTruthy (v : Option String) : Bool :=
  match v with
  | none => false
  | some s => s != ""

/-- The whitespace set of Python's `str.strip()` (ASCII part). -/
def pySpace (c : Char) : Bool :=
  c = ' ' || c = '\t' || c = '\n' || c = '\r' || c = '\x0B' || c = '\x0C'

/-- Python's `str.strip()`: remove leading and trailing whitespace. -/
def pyStrip (s : String) : String :=
  String.mk (((s.data.dropWhile pySpace).reverse.dropWhile pySpace).reverse)

/-- Lexicographic comparison of character lists by code point, as Python
compares strings. -/
def charsLt : List Char → List Char → Bool
  | _, [] => false
  | [], _ :: _ => true
  | a :: as, b :: bs =>
    if a.toNat < b.toNat then true
    else if b.toNat < a.toNat then false
    else charsLt as bs

/-- Python's `<` on strings: lexicographic by code point. -/
def strLt (a b : String) : Bool := charsLt a.data b.data

/-- A general PR comment record, with the fields the program reads
(`createdAt`, `body`). -/
structure CommentRec where
  createdAt : PyStr
  body : PyStr
deriving DecidableEq, Repr

/-- A review-comment record, with the fields the program reads
(`createdAt`, `path`, `body`, `diffHunk`). -/
structure ReviewRec where
  createdAt : PyStr
  path : PyStr
  body : PyStr
  diffHunk : PyStr
deriving DecidableEq, Repr

/-- The inner `commit` dict of a `commitsMeta` entry: `oid`, `message`,
`committedDate`, the `author.login` chain, and the `diff` attached from
the diff directory. -/
structure CommitInner where
  oid : PyStr
  message : PyStr
  committedDate : PyStr
  authorLogin : PyStr
  diff : PyStr
deriving DecidableEq, Repr

/-- A `commitsMeta` entry, holding the optional inner `commit` dict. -/
structure CommitRec where
  commit : Option CommitInner
deriving DecidableEq, Repr

/-- The payload of a tagged event tuple `(kind, ts, data)`: the tag is
the constructor. -/
inductive EvData where
  | comment (c : CommentRec)
  | review (r : ReviewRec)
  | commit (m : CommitRec)
deriving DecidableEq, Repr

/-- One event of the merged timeline: the extracted timestamp string and
the tagged source record. -/
structure Event where
  ts : String
  data : EvData
deriving DecidableEq, Repr

/-- Stream precedence rank of an event: comments are appended first (0),
then review comments (1), then commits (2). -/
def Event.rank (e : Event) : Nat :=
  match e.data with
  | .comment _ => 0
  | .review _ => 1
  | .commit _ => 2

/-- Whether the event tuple carries the `commit` tag. -/
def Event.isCommit (e : Event) : Bool :=
  match e.data with
  | .commit _ => true
  | _ => false

/-- `('comment', ts, c)` is appended iff `c.get('createdAt')` is truthy. -/
def mkCommentEv (c : CommentRec) : Option Event :=
  match c.createdAt.get with
  | some ts => if ts = "" then none else some ⟨ts, .comment c⟩
  | none => none

/-- `('review', ts, rc)` is appended iff `rc.get('createdAt')` is truthy. -/
def mkReviewEv (r : ReviewRec) : Option Event :=
  match r.createdAt.get with
  | some ts => if ts = "" then none else some ⟨ts, .review r⟩
  | none => none

/-- `('commit', ts, cm)` is appended iff
`cm.get('commit', dict()).get('committedDate')` is truthy. -/
def mkCommitEv (m : CommitRec) : Option Event :=
  match m.commit with
  | none => none
  | some i =>
    match i.committedDate.get with
    | some ts => if ts = "" then none else some ⟨ts, .commit m⟩
    | none => none

/-- One step of the stable ascending sort by timestamp: insert `x` after
every already-placed event whose timestamp is not greater. -/
def insertByTs (x : Event) : List Event → List Event
  | [] => [x]
  | y :: ys => if strLt x.ts y.ts then x :: y :: ys else y :: insertByTs x ys

/-- `events.sort(key=lambda e: e[1])`: Python's stable ascending sort by
the timestamp component, realised as a stable insertion sort. -/
def sortByTs (l : List Event) : List Event :=
  l.foldl (fun acc x => insertByTs x acc) []

/-- The tagged concatenation of the three streams in the fixed precedence
order (comments, then review comments, then commits), each filtered by
timestamp truthiness. -/
def taggedEvents (comments : List CommentRec) (reviews : List ReviewRec)
    (commitsMeta : List CommitRec) : List Event :=
  comments.filterMap mkCommentEv ++ reviews.filterMap mkReviewEv ++
    commitsMeta.filterMap mkCommitEv

/-- The timeline merger (lines 66-76 of `generate_dataset.py`): filter,
tag, concatenate in stream precedence order, stable-sort by timestamp. -/
def buildEvents (comments : List CommentRec) (reviews : List ReviewRec)
    (commitsMeta : List CommitRec) : List Event :=
  sortByTs (taggedEvents comments reviews commitsMeta)

/-- The tokenizer interface consumed by the generator: `encode` splits a
string into token ids without truncation, `decode` renders ids back to
text (`skip_special_tokens=True`). -/
structure Tok where
  encode : String → List Nat
  decode : List Nat → String

/-- The per-PR configuration the synthesis loop reads: PR number, title,
body, labels, the `max_context_size` setting, and the tokenizer. -/
structure Ctx where
  prNumber : Nat
  title : PyStr
  body : PyStr
  labels : List String
  maxContext : Nat
  tok : Tok

/-- The constant `repo` metadata value. -/
def repoName : String := "dotnet/runtime"

/-- The first lines of `user_parts`: the PR header (title, body, label
list if non-empty). -/
def headerParts (ctx : Ctx) : List String :=
  ["PR #" ++ toString ctx.prNumber ++ ": " ++ pyShow (ctx.title.getD ""),
   "Body: " ++ pyShow (ctx.body.getD "")] ++
    (if ctx.labels.isEmpty then []
     else ["Labels: " ++ String.intercalate ", " ctx.labels])

/-- The boundary search (lines 102-110): scan `past` backward for the most
recent commit event; return it (if any) together with the events strictly
after it (`past[last_commit_idx+1:]`, or all of `past` when none). -/
def splitAtLastCommit : List Event → Option Event × List Event
  | [] => (none, [])
  | e :: es =>
    match splitAtLastCommit es with
    | (some p, seg) => (some p, seg)
    | (none, seg) => if e.isCommit then (some e, es) else (none, e :: seg)

/-- The empty inner commit dict, as produced by
`(data or dict()).get('commit', dict())` on a record without one. -/
def emptyInner : CommitInner := ⟨.absent, .absent, .absent, .absent, .absent⟩

/-- `prev_commit_info`: the inner commit dict of the boundary event, or an
empty dict when it is missing. -/
def prevInfoOf (e : Event) : CommitInner :=
  match e.data with
  | .commit m => m.commit.getD emptyInner
  | _ => emptyInner

/-- The rendered previous-commit block (line 120-122). -/
def prevBlockString (i : CommitInner) : String :=
  "Last commit " ++ pyShow (i.oid.getD "") ++ " â€“ " ++
    pyShow (i.message.getD "") ++ "\nDiff:\n" ++ pyShow (i.diff.getD "")

/-- The previous-commit block of `user_parts` (lines 111-122): present
exactly when the `prev_date and commit_date and prev_date < commit_date`
guard passes. -/
def prevBlockParts (prevOpt : Option Event) (commitDate : Option String) :
    List String :=
  match prevOpt with
  | none => []
  | some p =>
    let i := prevInfoOf p
    let prevDate := i.committedDate.getD ""
    if pyTruthy prevDate && pyTruthy commitDate &&
        strLt (prevDate.getD "") (commitDate.getD "") then
      [prevBlockString i]
    else []

/-- Rendering of one event of the segment between the boundary commit and
the current commit (lines 124-136): a comment renders when its stripped
body is non-empty, a review renders when its stripped body or stripped
hunk is non-empty, a commit renders nothing.  Calling `.strip()` on a
null body raises. -/
def renderEvent (e : Event) : Except String (Option String) :=
  match e.data with
  | .comment c =>
    match c.body.getD "" with
    | none => .error "AttributeError"
    | some s =>
      .ok (if pyStrip s != "" then some ("Comment: " ++ s) else none)
  | .review r =>
    let path := r.path.getD ""
    let hunk := pyStrip ((r.diffHunk.get).getD "")
    match r.body.getD "" with
    | none => .error "AttributeError"
    | some rb =>
      .ok (if pyStrip rb != "" || hunk != "" then
        some ("Review on " ++ pyShow path ++ ": " ++ rb ++ "\nDiff:\n" ++ hunk)
      else none)
  | .commit _ => .ok none

/-- Render all events of the segment, in timeline order, keeping the
emitted lines. -/
def renderSeg : List Event → Except String (List String)
  | [] => .ok []
  | e :: rest =>
    match renderEvent e with
    | .error msg => .error msg
    | .ok o =>
      match renderSeg rest with
      | .error msg => .error msg
      | .ok tail =>
        match o with
        | some s => .ok (s :: tail)
        | none => .ok tail

/-- Build the full `user_parts` list for the current commit (lines
96-136): header, previous-commit block, then the rendered segment. -/
def mkPromptParts (ctx : Ctx) (past : List Event) (commitDate : Option String) :
    Except String (List String) :=
  match renderSeg (splitAtLastCommit past).2 with
  | .error msg => .error msg
  | .ok segParts =>
    .ok (headerParts ctx ++ prevBlockParts (splitAtLastCommit past).1 commitDate
      ++ segParts)

/-- The completion text (line 138). -/
def mkCompletion (oid : Option String) (diffText : String) : String :=
  "Commit " ++ pyShow oid ++ "\nDiff:\n" ++ diffText

/-- The size-enforcement step (lines 140-158): skip when the completion
alone exceeds `max_context`; otherwise truncate the prompt tokens from
the start when the total exceeds the budget, or skip when no room is left
for prompt tokens. -/
def sizeGate (tok : Tok) (maxContext : Nat) (prompt completion : String) :
    Option (String × String) :=
  let pt := tok.encode prompt
  let ct := tok.encode completion
  if maxContext < ct.length then none
  else if maxContext < pt.length + ct.length then
    let allowed := maxContext - ct.length
    if 0 < allowed then
      some (tok.decode (pt.drop (pt.length - allowed)), completion)
    else none
  else some (prompt, completion)

/-- An emitted example row: an insertion-ordered Python dict of string
keys and values. -/
abbrev Row := List (String × String)

/-- The keys of a row, in insertion order. -/
def rowKeys (r : Row) : List String := r.map Prod.fst

/-- Assoc lookup in a row. -/
def rowGet (r : Row) (k : String) : Option String :=
  match r with
  | [] => none
  | (k', v) :: rest => if k' = k then some v else rowGet rest k

/-- Build the emitted row (lines 166-179): `prompt` and `completion`
always, then `repo`, `author`, `date`, `id`, `labels` each only when
truthy. -/
def mkRow (ctx : Ctx) (oid commitDate commitAuthor : Option String)
    (prompt completion : String) : Row :=
  [("prompt", prompt), ("completion", completion)] ++
    (if repoName = "" then [] else [("repo", repoName)]) ++
    (if pyTruthy commitAuthor then [("author", commitAuthor.getD "")] else []) ++
    (if pyTruthy commitDate then [("date", commitDate.getD "")] else []) ++
    (if pyTruthy oid then [("id", oid.getD "")] else []) ++
    (if ctx.labels.isEmpty then []
     else [("labels", String.intercalate "," ctx.labels)])

/-- Process one event of the timeline (lines 82-184): a non-commit event
is recorded in the history buffer; a commit event is gated on its diff,
rendered, size-gated, and either emits a row and joins the buffer or is
skipped entirely (each `continue` also skips the `past.append`).  The
result is `(emitted row?, whether the event joins the buffer)`. -/
def step (ctx : Ctx) (past : List Event) (e : Event) :
    Except String (Option Row × Bool) :=
  match e.data with
  | .comment _ => .ok (none, true)
  | .review _ => .ok (none, true)
  | .commit m =>
    match m.commit with
    | none => .error "KeyError"
    | some info =>
      let oid := info.oid.get
      let commitDate := info.committedDate.getD ""
      let commitAuthor := info.authorLogin.getD ""
      match info.diff.getD "" with
      | none => .error "AttributeError"
      | some dt =>
        if pyStrip dt = "" then .ok (none, false)
        else
          match mkPromptParts ctx past commitDate with
          | .error msg => .error msg
          | .ok parts =>
            let prompt := String.intercalate "\n" parts
            let completion := mkCompletion oid dt
            match sizeGate ctx.tok ctx.maxContext prompt completion with
            | none => .ok (none, false)
            | some pc =>
              .ok (some (mkRow ctx oid commitDate commitAuthor pc.1 pc.2), true)

/-- The per-PR synthesis loop: walk the timeline, threading the `past`
buffer and the emitted rows. -/
def runLoop (ctx : Ctx) (events : List Event) (past : List Event)
    (rows : List Row) : Except String (List Row × List Event) :=
  match events with
  | [] => .ok (rows, past)
  | e :: rest =>
    match step ctx past e with
    | .error msg => .error msg
    | .ok (r, app) =>
      runLoop ctx rest (if app then past ++ [e] else past)
        (match r with
         | some row => rows ++ [row]
         | none => rows)

/-- Attach diffs (lines 57-63): for each commit with a truthy `oid` whose
diff file exists, store the stripped file text under `diff`. -/
def attachDiffs (lookup : String → Option String) (ms : List CommitRec) :
    List CommitRec :=
  ms.map fun m =>
    match m.commit with
    | none => m
    | some i =>
      match i.oid.get with
      | none => m
      | some o =>
        if o = "" then m
        else
          match lookup o with
          | none => m
          | some txt => { m with commit := some { i with diff := .str (pyStrip txt) } }

/-- The whole per-PR pipeline: attach diffs, merge the timeline, run the
synthesis loop, return the emitted rows. -/
def generate (ctx : Ctx) (lookup : String → Option String)
    (comments : List CommentRec) (reviews : List ReviewRec)
    (commitsMeta : List CommitRec) : Except String (List Row) :=
  (runLoop ctx (buildEvents comments reviews (attachDiffs lookup commitsMeta))
    [] []).map (fun x => x.1)

/-- csv output (line 191): the fieldnames are the keys of the first
emitted row. -/
def csvFieldnames (rows : List Row) : List String :=
  match rows with
  | [] => ["prompt", "completion"]
  | r :: _ => rowKeys r

/-- `csv.DictWriter.writerows`: write each row over the fieldnames;
a row holding a key outside the fieldnames raises `ValueError`. -/
def csvWriteRows (fns : List String) : List Row → Except String (List (List String))
  | [] => .ok []
  | r :: rs =>
    if (rowKeys r).all (fun k => decide (k ∈ fns)) then
      match csvWriteRows fns rs with
      | .error msg => .error msg
      | .ok tail => .ok ((fns.map (fun k => (rowGet r k).getD "")) :: tail)
    else .error "ValueError: dict contains fields not in fieldnames"

/-- The csv serialization of a PR's rows (lines 189-196): header from the
first row's keys, then all rows. -/
def csvWrite (rows : List Row) : Except String (List (List String)) :=
  match csvWriteRows (csvFieldnames rows) rows with
  | .error msg => .error msg
  | .ok body => .ok (csvFieldnames rows :: body)

/-- Modelled from the spec: the size-enforcement step under the
`sizeMeasure = "characters"` configuration of §4.2/§6 — measure is the
raw character length, the prompt is truncated from its start (earliest
characters dropped) until prompt plus completion fit, the completion is
untouched, and the example is dropped when the completion alone is over
budget or no room is left.  No such configuration exists in the code;
this definition exists to compare the spec's words with `sizeGate`. -/
def specCharGate (maxContext : Nat) (prompt completion : String) :
    Option (String × String) :=
  if maxContext < completion.length then none
  else if maxContext < prompt.length + completion.length then
    let allowed := maxContext - completion.length
    if 0 < allowed then
      some (String.mk (prompt.data.drop (prompt.length - allowed)), completion)
    else none
  else some (prompt, completion)

/-- A tokenizer that maps each character to one token (its code point). -/
def charTok : Tok :=
  ⟨fun s => s.data.map Char.toNat, fun l => String.mk (l.map Char.ofNat)⟩

/-- A degenerate tokenizer mapping every string to one fixed token. -/
def constTok : Tok := ⟨fun _ => [0], fun _ => ""⟩

/-- The diff text of a commit event as the loop reads it
(`commit_info.get('diff', '')`, with `''` for a missing inner dict). -/
def diffOfEv (e : Event) : String :=
  match e.data with
  | .commit m =>
    match m.commit with
    | some i => (i.diff.getD "").getD ""
    | none => ""
  | _ => ""

/-- An event none of whose fields sends `.strip()` a `None`: such events
are processed without raising.  For a commit event this also demands the
inner dict, which every commit event of a merged timeline has. -/
def CleanEvent (e : Event) : Prop :=
  match e.data with
  | .comment c => c.body ≠ PyStr.null
  | .review r => r.body ≠ PyStr.null
  | .commit m => ∃ i, m.commit = some i ∧ i.diff ≠ PyStr.null

/-! ### Concrete inputs used by counterexamples and witnesses -/

/-- A small PR context: PR #1, title `T`, body `B`, no labels, a large
budget, character tokenizer. -/
def exCtx : Ctx := ⟨1, .str "T", .str "B", [], 1000, charTok⟩

/-- Diff lookup for the three-commit scenario: `A` and `C` have diff
files, `B` has none. -/
def exLookup : String → Option String :=
  fun o => if o = "A" then some "dA" else if o = "C" then some "dC" else none

/-- Commit `A` at time 1 (has a diff file). -/
def exCommitA : CommitRec := ⟨some ⟨.str "A", .str "mA", .str "1", .absent, .absent⟩⟩

/-- Commit `B` at time 3 (no diff file: its diff stays empty). -/
def exCommitB : CommitRec := ⟨some ⟨.str "B", .str "mB", .str "3", .absent, .absent⟩⟩

/-- Commit `C` at time 4 (has a diff file). -/
def exCommitC : CommitRec := ⟨some ⟨.str "C", .str "mC", .str "4", .absent, .absent⟩⟩

/-- A comment at time 2, between commits `A` and `B`. -/
def exComment : CommentRec := ⟨.str "2", .str "fix this"⟩

/-- Commit `A` after diff attachment. -/
def exCommitA' : CommitRec := ⟨some ⟨.str "A", .str "mA", .str "1", .absent, .str "dA"⟩⟩

/-- Commit `C` after diff attachment. -/
def exCommitC' : CommitRec := ⟨some ⟨.str "C", .str "mC", .str "4", .absent, .str "dC"⟩⟩

/-- The first row emitted in the three-commit scenario. -/
def exRow1 : Row :=
  [("prompt", "PR #1: T\nBody: B"), ("completion", "Commit A\nDiff:\ndA"),
   ("repo", "dotnet/runtime"), ("date", "1"), ("id", "A")]

/-- The second row emitted in the three-commit scenario: its prompt shows
commit `A` as the previous commit and contains the comment at time 2. -/
def exRow2 : Row :=
  [("prompt",
    "PR #1: T\nBody: B\nLast commit A â€“ mA\nDiff:\ndA\nComment: fix this"),
   ("completion", "Commit C\nDiff:\ndC"), ("repo", "dotnet/runtime"),
   ("date", "4"), ("id", "C")]

/-- The final history buffer of the three-commit scenario: commit `B`
(empty diff) is absent. -/
def exPast : List Event :=
  [⟨"1", .commit exCommitA'⟩, ⟨"2", .comment exComment⟩,
   ⟨"4", .commit exCommitC'⟩]

/-- An 80-character prompt. -/
def p80 : String :=
  "aaaaaaaaaaaaaaaaaaaaaaaaaaaaaaaaaaaaaaaaaaaaaaaaaaaaaaaaaaaaaaaaaaaaaaaaaaaaaaaa"

/-- A 10-character completion. -/
def c10 : String := "bbbbbbbbbb"

/-- PR context for the csv scenario: PR #2, no labels. -/
def exDCtx : Ctx := ⟨2, .str "T2", .str "B2", [], 1000, charTok⟩

/-- Diff lookup for the csv scenario. -/
def exDLookup : String → Option String :=
  fun o => if o = "d1" then some "x" else if o = "d2" then some "y" else none

/-- First commit of the csv scenario: no author login. -/
def exDCommit1 : CommitRec := ⟨some ⟨.str "d1", .str "m1", .str "1", .absent, .absent⟩⟩

/-- Second commit of the csv scenario: author login `bob`. -/
def exDCommit2 : CommitRec := ⟨some ⟨.str "d2", .str "m2", .str "2", .str "bob", .absent⟩⟩

/-- The row emitted for the first csv-scenario commit (no `author` key). -/
def exDRow1 : Row :=
  [("prompt", "PR #2: T2\nBody: B2"), ("completion", "Commit d1\nDiff:\nx"),
   ("repo", "dotnet/runtime"), ("date", "1"), ("id", "d1")]

/-- The row emitted for the second csv-scenario commit (has `author`). -/
def exDRow2 : Row :=
  [("prompt", "PR #2: T2\nBody: B2\nLast commit d1 â€“ m1\nDiff:\nx"),
   ("completion", "Commit d2\nDiff:\ny"), ("repo", "dotnet/runtime"),
   ("author", "bob"), ("date", "2"), ("id", "d2")]

/-- A comment whose `body` is JSON null. -/
def exNullComment : CommentRec := ⟨.str "1", .null⟩

/-- A commit at time 2 with a diff, processed after the null-body
comment. -/
def exCommitAfterNull : CommitRec := ⟨some ⟨.str "n1", .str "m", .str "2", .absent, .absent⟩⟩

/-- Diff lookup for the null-body scenario. -/
def exNLookup : String → Option String := fun o => if o = "n1" then some "z" else none

/-! ### Order and stability of the timeline merge -/

theorem charsLt_irrefl : ∀ l : List Char, charsLt l l = false
  | [] => rfl
  | a :: as => by
    simp only [charsLt, Nat.lt_irrefl, if_false]
    exact charsLt_irrefl as

theorem strLt_irrefl (a : String) : strLt a a = false :=
  charsLt_irrefl a.data

theorem charsLt_asymm : ∀ (l₁ l₂ : List Char),
    charsLt l₁ l₂ = true → charsLt l₂ l₁ = false := by
  intro l₁
  induction l₁ with
  | nil =>
    intro l₂ h
    cases l₂ with
    | nil => simp [charsLt] at h
    | cons b bs => simp [charsLt]
  | cons a as ih =>
    intro l₂ h
    cases l₂ with
    | nil => simp [charsLt] at h
    | cons b bs =>
      simp only [charsLt] at h ⊢
      rcases Nat.lt_trichotomy a.toNat b.toNat with hab | hab | hab
      · rw [if_neg (by omega), if_pos hab]
      · rw [if_neg hab.not_lt, if_neg (by omega)] at h
        rw [if_neg (by omega), if_neg hab.not_lt]
        exact ih bs h
      · rw [if_neg (by omega), if_pos hab] at h
        cases h

theorem charsLt_trans : ∀ (l₁ l₂ l₃ : List Char),
    charsLt l₁ l₂ = true → charsLt l₂ l₃ = true → charsLt l₁ l₃ = true := by
  intro l₁
  induction l₁ with
  | nil =>
    intro l₂ l₃ h₁ h₂
    cases l₃ with
    | nil => cases l₂ <;> simp [charsLt] at h₂
    | cons c cs => simp [charsLt]
  | cons a as ih =>
    intro l₂ l₃ h₁ h₂
    cases l₂ with
    | nil => simp [charsLt] at h₁
    | cons b bs =>
      cases l₃ with
      | nil => simp [charsLt] at h₂
      | cons c cs =>
        simp only [charsLt] at h₁ h₂ ⊢
        by_cases hba : b.toNat < a.toNat
        · rw [if_neg (by omega), if_pos hba] at h₁
          cases h₁
        · by_cases hcb : c.toNat < b.toNat
          · rw [if_neg (by omega), if_pos hcb] at h₂
            cases h₂
          · by_cases hab : a.toNat < b.toNat
            · rw [if_pos (by omega : a.toNat < c.toNat)]
            · by_cases hbc : b.toNat < c.toNat
              · rw [if_pos (by omega : a.toNat < c.toNat)]
              · rw [if_neg hab, if_neg hba] at h₁
                rw [if_neg hbc, if_neg hcb] at h₂
                rw [if_neg (by omega), if_neg (by omega)]
                exact ih bs cs h₁ h₂

theorem strLt_asymm {a b : String} (h : strLt a b = true) : strLt b a = false :=
  charsLt_asymm a.data b.data h

theorem strLt_trans {a b c : String} (h₁ : strLt a b = true)
    (h₂ : strLt b c = true) : strLt a c = true :=
  charsLt_trans a.data b.data c.data h₁ h₂

theorem strLt_ne {a b : String} (h : strLt a b = true) : a ≠ b := by
  intro he
  rw [he, strLt_irrefl] at h
  cases h

/-- `a ≤ b` as the loop's comparisons see it: `b` is not less than `a`. -/
theorem strLt_false_of_lt_of_nlt {x y b : String} (hxy : strLt x y = true)
    (hby : strLt b y = false) : strLt b x = false := by
  rcases Bool.eq_false_or_eq_true (strLt b x) with h | h
  · rw [strLt_trans h hxy] at hby
    cases hby
  · exact h

theorem mem_insertByTs {a x : Event} : ∀ {l : List Event},
    a ∈ insertByTs x l ↔ a = x ∨ a ∈ l := by
  intro l
  induction l with
  | nil => simp [insertByTs]
  | cons y ys ih =>
    simp only [insertByTs]
    split
    · simp
    · simp only [List.mem_cons, ih]
      tauto

theorem perm_insertByTs (x : Event) : ∀ (l : List Event),
    List.Perm (insertByTs x l) (x :: l) := by
  intro l
  induction l with
  | nil => simp [insertByTs]
  | cons y ys ih =>
    simp only [insertByTs]
    split
    · exact List.Perm.refl _
    · exact (List.Perm.cons y ih).trans (List.Perm.swap x y ys)

/-- Sortedness predicate: no later event's timestamp is less than an
earlier one's. -/
def SortedTs (l : List Event) : Prop :=
  l.Pairwise (fun a b => strLt b.ts a.ts = false)

theorem sortedTs_insertByTs {x : Event} : ∀ {l : List Event},
    SortedTs l → SortedTs (insertByTs x l) := by
  intro l hl
  induction l with
  | nil => simp [SortedTs, insertByTs]
  | cons y ys ih =>
    rcases (List.pairwise_cons.mp hl) with ⟨hy, hys⟩
    simp only [insertByTs]
    split
    · rename_i hlt
      refine List.pairwise_cons.mpr ⟨?_, hl⟩
      intro b hb
      rcases List.mem_cons.mp hb with rfl | hb
      · exact strLt_asymm hlt
      · exact strLt_false_of_lt_of_nlt hlt (hy b hb)
    · rename_i hnlt
      have hxy : strLt x.ts y.ts = false := Bool.eq_false_iff.mpr hnlt
      refine List.pairwise_cons.mpr ⟨?_, ih hys⟩
      intro b hb
      rcases mem_insertByTs.mp hb with rfl | hb
      · exact hxy
      · exact hy b hb

theorem sortByTs_aux_perm : ∀ (l acc : List Event),
    List.Perm (l.foldl (fun acc x => insertByTs x acc) acc) (acc ++ l) := by
  intro l
  induction l with
  | nil => simp
  | cons x xs ih =>
    intro acc
    have h1 := ih (insertByTs x acc)
    have h2 : List.Perm (insertByTs x acc ++ xs) ((x :: acc) ++ xs) :=
      List.Perm.append_right xs (perm_insertByTs x acc)
    have h3 : List.Perm ((x :: acc) ++ xs) (acc ++ x :: xs) :=
      List.perm_middle.symm
    exact (h1.trans h2).trans h3

/-- The stable sort is a permutation of its input: no event is dropped or
duplicated. -/
theorem sortByTs_perm (l : List Event) : List.Perm (sortByTs l) l := by
  simpa using sortByTs_aux_perm l []

theorem mem_sortByTs {a : Event} {l : List Event} :
    a ∈ sortByTs l ↔ a ∈ l :=
  (sortByTs_perm l).mem_iff

theorem sortByTs_aux_sorted : ∀ (l acc : List Event),
    SortedTs acc → SortedTs (l.foldl (fun acc x => insertByTs x acc) acc) := by
  intro l
  induction l with
  | nil => intro acc h; simpa using h
  | cons x xs ih =>
    intro acc h
    exact ih (insertByTs x acc) (sortedTs_insertByTs h)

/-- The merged timeline is sorted by timestamp. -/
theorem sortByTs_sorted (l : List Event) : SortedTs (sortByTs l) :=
  sortByTs_aux_sorted l [] List.Pairwise.nil

theorem pairwise_insertByTs {Q : Event → Event → Prop}
    (hQne : ∀ a b : Event, a.ts ≠ b.ts → Q a b) (x : Event) :
    ∀ {l : List Event}, SortedTs l → l.Pairwise Q → (∀ a ∈ l, Q a x) →
      (insertByTs x l).Pairwise Q := by
  intro l hs hq hax
  induction l with
  | nil => simp [insertByTs]
  | cons y ys ih =>
    rcases List.pairwise_cons.mp hs with ⟨hsy, hsys⟩
    rcases List.pairwise_cons.mp hq with ⟨hqy, hqys⟩
    simp only [insertByTs]
    split
    · rename_i hlt
      refine List.pairwise_cons.mpr ⟨?_, hq⟩
      intro b hb
      rcases List.mem_cons.mp hb with rfl | hb
      · exact hQne x b (strLt_ne hlt)
      · apply hQne x b
        intro he
        have hby := hsy b hb
        rw [← he] at hby
        rw [hlt] at hby
        cases hby
    · rename_i hnlt
      refine List.pairwise_cons.mpr
        ⟨?_, ih hsys hqys (fun a ha => hax a (List.mem_cons_of_mem y ha))⟩
      intro b hb
      rcases mem_insertByTs.mp hb with rfl | hb
      · exact hax y (List.mem_cons_self y ys)
      · exact hqy b hb

theorem pairwise_sortByTs_aux {Q : Event → Event → Prop}
    (hQne : ∀ a b : Event, a.ts ≠ b.ts → Q a b) :
    ∀ (l acc : List Event), SortedTs acc → acc.Pairwise Q →
      (∀ a ∈ acc, ∀ b ∈ l, Q a b) → l.Pairwise Q →
      (l.foldl (fun acc x => insertByTs x acc) acc).Pairwise Q := by
  intro l
  induction l with
  | nil =>
    intro acc _ hq _ _
    simpa using hq
  | cons x xs ih =>
    intro acc hs hq hcross hl
    rcases List.pairwise_cons.mp hl with ⟨hlx, hlxs⟩
    simp only [List.foldl_cons]
    apply ih
    · exact sortedTs_insertByTs hs
    · exact pairwise_insertByTs hQne x hs hq
        (fun a ha => hcross a ha x (List.mem_cons_self x xs))
    · intro a ha b hb
      rcases mem_insertByTs.mp ha with rfl | ha
      · exact hlx b hb
      · exact hcross a ha b (List.mem_cons_of_mem x hb)
    · exact hlxs

/-- The sort is stable for any property closed under distinct timestamps:
a pairwise property of the input that can only fail on equal timestamps
is preserved by the sort. -/
theorem pairwise_sortByTs {Q : Event → Event → Prop}
    (hQne : ∀ a b : Event, a.ts ≠ b.ts → Q a b) {l : List Event}
    (hl : l.Pairwise Q) : (sortByTs l).Pairwise Q :=
  pairwise_sortByTs_aux hQne l [] List.Pairwise.nil List.Pairwise.nil
    (by simp) hl

theorem pairwise_and {α : Type} {R S : α → α → Prop} :
    ∀ {l : List α}, l.Pairwise R → l.Pairwise S →
      l.Pairwise (fun a b => R a b ∧ S a b) := by
  intro l hR hS
  induction l with
  | nil => exact List.Pairwise.nil
  | cons x xs ih =>
    rcases List.pairwise_cons.mp hR with ⟨hR1, hR2⟩
    rcases List.pairwise_cons.mp hS with ⟨hS1, hS2⟩
    exact List.pairwise_cons.mpr ⟨fun b hb => ⟨hR1 b hb, hS1 b hb⟩, ih hR2 hS2⟩

theorem mkCommentEv_shape {a : CommentRec} {e : Event}
    (h : mkCommentEv a = some e) : e.data = .comment a := by
  unfold mkCommentEv at h
  split at h
  · split at h
    · cases h
    · cases h; rfl
  · cases h

theorem mkReviewEv_shape {a : ReviewRec} {e : Event}
    (h : mkReviewEv a = some e) : e.data = .review a := by
  unfold mkReviewEv at h
  split at h
  · split at h
    · cases h
    · cases h; rfl
  · cases h

theorem mkCommitEv_shape {a : CommitRec} {e : Event}
    (h : mkCommitEv a = some e) :
    e.data = .commit a ∧ ∃ i, a.commit = some i := by
  unfold mkCommitEv at h
  split at h
  · cases h
  · rename_i i hm
    split at h
    · split at h
      · cases h
      · cases h
        exact ⟨rfl, i, hm⟩
    · cases h

theorem rank_of_comment {a : CommentRec} {e : Event}
    (h : e.data = .comment a) : e.rank = 0 := by
  unfold Event.rank
  rw [h]

theorem rank_of_review {a : ReviewRec} {e : Event}
    (h : e.data = .review a) : e.rank = 1 := by
  unfold Event.rank
  rw [h]

theorem rank_of_commit {a : CommitRec} {e : Event}
    (h : e.data = .commit a) : e.rank = 2 := by
  unfold Event.rank
  rw [h]

theorem pairwise_rank_const {l : List Event} {k : Nat}
    (h : ∀ e ∈ l, e.rank = k) :
    l.Pairwise (fun a b => a.rank ≤ b.rank) := by
  induction l with
  | nil => exact List.Pairwise.nil
  | cons x xs ih =>
    refine List.pairwise_cons.mpr
      ⟨fun b hb => ?_, ih (fun e he => h e (List.mem_cons_of_mem x he))⟩
    rw [h x (List.mem_cons_self x xs), h b (List.mem_cons_of_mem x hb)]

/-- In the tagged concatenation, stream ranks are non-decreasing:
comments (0), then reviews (1), then commits (2). -/
theorem rank_taggedEvents (comments : List CommentRec)
    (reviews : List ReviewRec) (commitsMeta : List CommitRec) :
    (taggedEvents comments reviews commitsMeta).Pairwise
      (fun a b => a.rank ≤ b.rank) := by
  have hc : ∀ e ∈ comments.filterMap mkCommentEv, e.rank = 0 := by
    intro e he
    rcases List.mem_filterMap.mp he with ⟨a, _, ha⟩
    exact rank_of_comment (mkCommentEv_shape ha)
  have hr : ∀ e ∈ reviews.filterMap mkReviewEv, e.rank = 1 := by
    intro e he
    rcases List.mem_filterMap.mp he with ⟨a, _, ha⟩
    exact rank_of_review (mkReviewEv_shape ha)
  have hm : ∀ e ∈ commitsMeta.filterMap mkCommitEv, e.rank = 2 := by
    intro e he
    rcases List.mem_filterMap.mp he with ⟨a, _, ha⟩
    exact rank_of_commit (mkCommitEv_shape ha).1
  unfold taggedEvents
  refine List.pairwise_append.mpr
    ⟨List.pairwise_append.mpr ⟨pairwise_rank_const hc, pairwise_rank_const hr,
      ?_⟩, pairwise_rank_const hm, ?_⟩
  · intro a ha b hb
    rw [hc a ha, hr b hb]
    omega
  · intro a ha b hb
    rcases List.mem_append.mp ha with ha | ha
    · rw [hc a ha, hm b hb]
      omega
    · rw [hr a ha, hm b hb]
      omega

/-- C5.  For every input collections of comments, review comments, and
commits, the merged timeline is non-decreasing in timestamp for every
pair (in particular every adjacent pair), and any two events with equal
timestamps appear with non-decreasing stream rank (comment 0, review 1,
commit 2): the fixed precedence order, independent of the input
collection order over which the theorem is universally quantified. -/
theorem timeline_ordering_and_tiebreak (comments : List CommentRec)
    (reviews : List ReviewRec) (commitsMeta : List CommitRec) :
    (buildEvents comments reviews commitsMeta).Pairwise
      (fun a b => strLt b.ts a.ts = false ∧
        (a.ts = b.ts → a.rank ≤ b.rank)) := by
  apply pairwise_and
  · exact sortByTs_sorted _
  · apply pairwise_sortByTs
    · intro a b hne he
      exact absurd he hne
    · apply List.Pairwise.imp _ (rank_taggedEvents comments reviews commitsMeta)
      intro a b h _
      exact h

theorem mkCommentEv_none_iff (c : CommentRec) :
    mkCommentEv c = none ↔ (c.createdAt.get).getD "" = "" := by
  unfold mkCommentEv
  cases c.createdAt.get with
  | none => simp
  | some ts =>
    by_cases h : ts = "" <;> simp [h]

theorem mkReviewEv_none_iff (r : ReviewRec) :
    mkReviewEv r = none ↔ (r.createdAt.get).getD "" = "" := by
  unfold mkReviewEv
  cases r.createdAt.get with
  | none => simp
  | some ts =>
    by_cases h : ts = "" <;> simp [h]

theorem mkCommitEv_none_iff (m : CommitRec) :
    mkCommitEv m = none ↔
      ((m.commit.bind (fun i => i.committedDate.get)).getD "" = "") := by
  unfold mkCommitEv
  cases m.commit with
  | none => simp
  | some i =>
    cases hts : i.committedDate.get with
    | none => simp [hts]
    | some ts =>
      by_cases h : ts = "" <;> simp [hts, h]

/-- C6.  The merge keeps exactly the records whose timestamp field is
present and non-empty: the merged timeline is a permutation of the tagged
filtered concatenation (so every surviving record appears with exactly
its input multiplicity — once, for a record occurring once — and nothing
else is dropped or duplicated), and each stream's filter rejects a record
precisely when its timestamp is absent, null, or empty. -/
theorem timeline_merge_exact (comments : List CommentRec)
    (reviews : List ReviewRec) (commitsMeta : List CommitRec) :
    List.Perm (buildEvents comments reviews commitsMeta)
        (taggedEvents comments reviews commitsMeta)
    ∧ (∀ e : Event, (buildEvents comments reviews commitsMeta).count e =
        (taggedEvents comments reviews commitsMeta).count e)
    ∧ (∀ c : CommentRec, mkCommentEv c = none ↔ (c.createdAt.get).getD "" = "")
    ∧ (∀ r : ReviewRec, mkReviewEv r = none ↔ (r.createdAt.get).getD "" = "")
    ∧ (∀ m : CommitRec, mkCommitEv m = none ↔
        ((m.commit.bind (fun i => i.committedDate.get)).getD "" = "")) :=
  ⟨sortByTs_perm _, fun e => (sortByTs_perm _).count_eq e,
    mkCommentEv_none_iff, mkReviewEv_none_iff, mkCommitEv_none_iff⟩

/-- C2.  The size-enforcement step, for any tokenizer, budget, rendered
prompt and completion: when the completion alone exceeds the budget
nothing is emitted; when the combined measure fits, both are emitted
unchanged; when the combined measure exceeds the budget but room is left
after reserving the completion, the prompt token list is truncated from
its start to exactly the remaining room (the completion untouched, and
the combined measure then fits); and when reserving the completion leaves
no room, nothing is emitted. -/
theorem sizeGate_enforcement (tok : Tok) (maxContext : Nat) (p c : String) :
    (maxContext < (tok.encode c).length → sizeGate tok maxContext p c = none)
    ∧ ((tok.encode p).length + (tok.encode c).length ≤ maxContext →
        sizeGate tok maxContext p c = some (p, c))
    ∧ ((tok.encode c).length ≤ maxContext →
        maxContext < (tok.encode p).length + (tok.encode c).length →
        0 < maxContext - (tok.encode c).length →
        sizeGate tok maxContext p c =
          some (tok.decode ((tok.encode p).drop
            ((tok.encode p).length - (maxContext - (tok.encode c).length))), c)
          ∧ ((tok.encode p).drop
              ((tok.encode p).length - (maxContext - (tok.encode c).length))).length
              + (tok.encode c).length ≤ maxContext)
    ∧ (maxContext < (tok.encode p).length + (tok.encode c).length →
        maxContext - (tok.encode c).length = 0 →
        sizeGate tok maxContext p c = none) := by
  simp only [sizeGate]
  refine ⟨?_, ?_, ?_, ?_⟩
  · intro h
    rw [if_pos h]
  · intro h
    rw [if_neg (by omega), if_neg (by omega)]
  · intro h₁ h₂ h₃
    constructor
    · rw [if_neg (by omega), if_pos h₂, if_pos h₃]
    · rw [List.length_drop]
      omega
  · intro h₁ h₂
    by_cases hc : maxContext < (tok.encode c).length
    · rw [if_pos hc]
    · rw [if_neg hc, if_pos h₁, if_neg (by omega)]

/-- Witness for C2: with the character tokenizer, budget 5, a 6-token
prompt and a 2-token completion, the prompt is truncated to its last 3
tokens and the combined measure fits. -/
theorem sizeGate_enforcement_witness :
    sizeGate charTok 5 "aaaaaa" "bb" =
      some (charTok.decode ((charTok.encode "aaaaaa").drop
        ((charTok.encode "aaaaaa").length - (5 - (charTok.encode "bb").length))), "bb")
    ∧ ((charTok.encode "aaaaaa").drop
        ((charTok.encode "aaaaaa").length - (5 - (charTok.encode "bb").length))).length
        + (charTok.encode "bb").length ≤ 5 :=
  (sizeGate_enforcement charTok 5 "aaaaaa" "bb").2.2.1 (by decide) (by decide)
    (by decide)

/-- Counterexample for C3.  The generator's size enforcement always
measures tokenized length with the injected tokenizer; no `sizeMeasure`
configuration exists.  Under a tokenizer that is not character-based
(here: every string is one token), the behaviour mandated by the claim's
characters scenario (maxContextSize 50, 10-character completion,
80-character prompt truncated to its last 40 characters) does not occur:
the 80-character prompt is emitted unchanged, while the spec-modelled
characters measure (`specCharGate`) would truncate it. -/
theorem sizeMeasure_config_cex :
    sizeGate constTok 50 p80 c10 = some (p80, c10)
    ∧ p80.length = 80 ∧ c10.length = 10
    ∧ specCharGate 50 p80 c10 = some (String.mk (p80.data.drop 40), c10)
    ∧ String.mk (p80.data.drop 40) ≠ p80 :=
  ⟨rfl, rfl, rfl, rfl, by decide⟩

/-- C3 (amended).  The only size measure the code supports is tokenized
length under the injected tokenizer.  When that tokenizer maps each
character to one token, the size enforcement coincides exactly with the
spec's characters measure — in particular, with maxContextSize 50 and a
10-character completion, an 80-character prompt is truncated to exactly
its last 40 characters. -/
theorem sizeGate_charTok_eq_specCharGate (maxContext : Nat) (p c : String) :
    sizeGate charTok maxContext p c = specCharGate maxContext p c := by
  have hmap : ∀ l : List Char, l.map (Char.ofNat ∘ Char.toNat) = l := by
    intro l
    induction l with
    | nil => rfl
    | cons x xs ih =>
      show Char.ofNat x.toNat :: xs.map (Char.ofNat ∘ Char.toNat) = x :: xs
      rw [Char.ofNat_toNat, ih]
  have hlen : ∀ s : String, (charTok.encode s).length = s.length := by
    intro s
    show (s.data.map Char.toNat).length = s.length
    rw [List.length_map]
    rfl
  have hdec : ∀ (s : String) (k : Nat),
      charTok.decode ((charTok.encode s).drop k) = String.mk (s.data.drop k) := by
    intro s k
    show String.mk (((s.data.map Char.toNat).drop k).map Char.ofNat) =
      String.mk (s.data.drop k)
    rw [← List.map_drop, List.map_map, hmap]
  simp only [sizeGate, specCharGate, hlen, hdec]

/-- C8.  Synthesis is a pure function of the PR record streams, the diff
lookup, the configuration and the tokenizer: two runs over the same
inputs give identical example sequences — no randomness, wall clock, or
mutable state survives in the model because none occurs in the loop. -/
theorem synthesis_deterministic (ctx : Ctx) (lookup : String → Option String)
    (comments : List CommentRec) (reviews : List ReviewRec)
    (commitsMeta : List CommitRec) :
    generate ctx lookup comments reviews commitsMeta =
      generate ctx lookup comments reviews commitsMeta := rfl

/-- C10.  With csv output, the fieldnames are the keys of the first
emitted row, and rows' key sets vary with field truthiness: on a PR whose
first commit has no author login while the second does, the second row
carries an `author` key that the first row (hence the header) lacks, and
writing the rows raises `ValueError`, so no complete csv output is
produced for that PR. -/
theorem csv_firstRow_fieldnames_raises :
    generate exDCtx exDLookup [] [] [exDCommit1, exDCommit2] = .ok [exDRow1, exDRow2]
    ∧ csvFieldnames [exDRow1, exDRow2] = rowKeys exDRow1
    ∧ "author" ∉ rowKeys exDRow1
    ∧ "author" ∈ rowKeys exDRow2
    ∧ csvWrite [exDRow1, exDRow2] =
        .error "ValueError: dict contains fields not in fieldnames" :=
  ⟨rfl, rfl, by decide, by decide, rfl⟩

/-- Counterexample for C1.  Three commits A (t=1, diff `dA`), B (t=3, no
diff file) and C (t=4, diff `dC`), with one comment at t=2.  The claim
says B still becomes part of the history buffer and C's context segment
contains only events after B.  In fact the `continue` on the empty diff
also skips `past.append`: the final buffer holds A, the comment, and C —
B is absent — and C's emitted prompt names A as the previous commit and
contains the t=2 comment, which precedes B. -/
theorem emptyDiff_boundary_cex :
    runLoop exCtx (buildEvents [exComment] []
        (attachDiffs exLookup [exCommitA, exCommitB, exCommitC])) [] [] =
      .ok ([exRow1, exRow2], exPast)
    ∧ (Event.mk "3" (.commit exCommitB) ∉ exPast)
    ∧ rowGet exRow2 "prompt" =
        some "PR #1: T\nBody: B\nLast commit A â€“ mA\nDiff:\ndA\nComment: fix this" :=
  ⟨rfl, by decide, rfl⟩

/-- C1 (amended).  A commit event whose diff text is empty or absent
emits no example and is also not appended to the history buffer (the
`continue` skips `past.append`), so it does not become a boundary for
later commits: a later commit's boundary search passes over it to the
most recent commit that was appended. -/
theorem emptyDiff_skipped (ctx : Ctx) (past : List Event) (ts : String)
    (m : CommitRec) (i : CommitInner) (dt : String)
    (hw : m.commit = some i) (hd : i.diff.getD "" = some dt)
    (hdt : pyStrip dt = "") :
    step ctx past ⟨ts, .commit m⟩ = .ok (none, false) := by
  simp only [step, hw, hd]
  rw [if_pos hdt]

/-- Witness for C1's amended theorem: commit `B` (absent diff) is skipped
and not appended. -/
theorem emptyDiff_skipped_witness :
    step exCtx [] ⟨"3", .commit exCommitB⟩ = .ok (none, false) :=
  emptyDiff_skipped exCtx [] "3" exCommitB
    ⟨.str "B", .str "mB", .str "3", .absent, .absent⟩ "" rfl rfl rfl

theorem splitAtLastCommit_mem : ∀ (past : List Event) (po : Option Event)
    (seg : List Event), splitAtLastCommit past = (po, seg) →
    ∀ e ∈ seg, e ∈ past := by
  intro past
  induction past with
  | nil =>
    intro po seg h e he
    simp only [splitAtLastCommit] at h
    cases h
    exact absurd he (List.not_mem_nil e)
  | cons x xs ih =>
    intro po seg h e he
    simp only [splitAtLastCommit] at h
    cases hx : splitAtLastCommit xs with
    | mk po' seg' =>
      cases po' with
      | some p =>
        simp only [hx] at h
        cases h
        exact List.mem_cons_of_mem x (ih _ _ hx e he)
      | none =>
        simp only [hx] at h
        by_cases hc : x.isCommit = true
        · rw [if_pos hc] at h
          cases h
          exact List.mem_cons_of_mem x he
        · rw [if_neg hc] at h
          cases h
          rcases List.mem_cons.mp he with rfl | he'
          · exact List.mem_cons_self e xs
          · exact List.mem_cons_of_mem x (ih _ _ hx e he')

theorem cleanEvent_of_comment {e : Event} {a : CommentRec}
    (h : e.data = .comment a) (hb : a.body ≠ PyStr.null) : CleanEvent e := by
  unfold CleanEvent
  rw [h]
  exact hb

theorem cleanEvent_of_review {e : Event} {a : ReviewRec}
    (h : e.data = .review a) (hb : a.body ≠ PyStr.null) : CleanEvent e := by
  unfold CleanEvent
  rw [h]
  exact hb

theorem cleanEvent_of_commit {e : Event} {m : CommitRec} {i : CommitInner}
    (h : e.data = .commit m) (hi : m.commit = some i)
    (hd : i.diff ≠ PyStr.null) : CleanEvent e := by
  unfold CleanEvent
  rw [h]
  exact ⟨i, hi, hd⟩

theorem cleanEvent_comment_elim {e : Event} {a : CommentRec}
    (h : e.data = .comment a) (hc : CleanEvent e) : a.body ≠ PyStr.null := by
  unfold CleanEvent at hc
  rw [h] at hc
  exact hc

theorem cleanEvent_review_elim {e : Event} {a : ReviewRec}
    (h : e.data = .review a) (hc : CleanEvent e) : a.body ≠ PyStr.null := by
  unfold CleanEvent at hc
  rw [h] at hc
  exact hc

theorem cleanEvent_commit_elim {e : Event} {m : CommitRec}
    (h : e.data = .commit m) (hc : CleanEvent e) :
    ∃ i, m.commit = some i ∧ i.diff ≠ PyStr.null := by
  unfold CleanEvent at hc
  rw [h] at hc
  exact hc

theorem renderEvent_ok_of_clean {e : Event} (he : CleanEvent e) :
    ∃ o, renderEvent e = .ok o := by
  cases hd : e.data with
  | comment c =>
    have hb := cleanEvent_comment_elim hd he
    cases hcb : c.body with
    | null => exact absurd hcb hb
    | absent => exact ⟨_, by simp only [renderEvent, hd, hcb, PyStr.getD]; rfl⟩
    | str s => exact ⟨_, by simp only [renderEvent, hd, hcb, PyStr.getD]; rfl⟩
  | review r =>
    have hb := cleanEvent_review_elim hd he
    cases hcb : r.body with
    | null => exact absurd hcb hb
    | absent => exact ⟨_, by simp only [renderEvent, hd, hcb, PyStr.getD]; rfl⟩
    | str s => exact ⟨_, by simp only [renderEvent, hd, hcb, PyStr.getD]; rfl⟩
  | commit m => exact ⟨none, by simp only [renderEvent, hd]⟩

theorem renderSeg_ok_of_clean : ∀ (seg : List Event),
    (∀ e ∈ seg, CleanEvent e) → ∃ parts, renderSeg seg = .ok parts := by
  intro seg
  induction seg with
  | nil => exact fun _ => ⟨[], rfl⟩
  | cons e rest ih =>
    intro h
    obtain ⟨o, ho⟩ := renderEvent_ok_of_clean (h e (List.mem_cons_self e rest))
    obtain ⟨tail, htail⟩ := ih (fun a ha => h a (List.mem_cons_of_mem e ha))
    cases o with
    | some s => exact ⟨s :: tail, by simp only [renderSeg, ho, htail]⟩
    | none => exact ⟨tail, by simp only [renderSeg, ho, htail]⟩

theorem mkPromptParts_ok_of_clean (ctx : Ctx) (past : List Event)
    (cd : Option String) (hpast : ∀ a ∈ past, CleanEvent a) :
    ∃ parts, mkPromptParts ctx past cd = .ok parts := by
  have hseg : ∀ a ∈ (splitAtLastCommit past).2, CleanEvent a := by
    intro a ha
    exact hpast a (splitAtLastCommit_mem past _ _ rfl a ha)
  obtain ⟨parts, hparts⟩ := renderSeg_ok_of_clean _ hseg
  exact ⟨_, by simp only [mkPromptParts, hparts]; rfl⟩

theorem attachDiffs_nonnull (lookup : String → Option String)
    (ms : List CommitRec)
    (hm : ∀ m ∈ ms, ∀ i, m.commit = some i → i.diff ≠ PyStr.null) :
    ∀ m ∈ attachDiffs lookup ms, ∀ i, m.commit = some i →
      i.diff ≠ PyStr.null := by
  intro m hmem i hi
  rcases List.mem_map.mp hmem with ⟨m₀, hm₀, rfl⟩
  cases hm0c : m₀.commit with
  | none =>
    simp only [hm0c] at hi
    cases hi
  | some i₀ =>
    cases ho : i₀.oid.get with
    | none =>
      simp only [hm0c, ho] at hi
      cases hi
      exact hm m₀ hm₀ i hm0c
    | some o =>
      by_cases ho0 : o = ""
      · simp only [hm0c, ho, if_pos ho0] at hi
        cases hi
        exact hm m₀ hm₀ i hm0c
      · cases hl : lookup o with
        | none =>
          simp only [hm0c, ho, if_neg ho0, hl] at hi
          cases hi
          exact hm m₀ hm₀ i hm0c
        | some txt =>
          simp only [hm0c, ho, if_neg ho0, hl] at hi
          cases hi
          simp

theorem clean_of_buildEvents (comments : List CommentRec)
    (reviews : List ReviewRec) (ms : List CommitRec)
    (hc : ∀ c ∈ comments, c.body ≠ PyStr.null)
    (hr : ∀ r ∈ reviews, r.body ≠ PyStr.null)
    (hm : ∀ m ∈ ms, ∀ i, m.commit = some i → i.diff ≠ PyStr.null) :
    ∀ e ∈ buildEvents comments reviews ms, CleanEvent e := by
  intro e he
  rw [buildEvents, mem_sortByTs] at he
  rcases List.mem_append.mp he with hcr | hmm
  · rcases List.mem_append.mp hcr with h1 | h2
    · rcases List.mem_filterMap.mp h1 with ⟨a, ha, hmk⟩
      exact cleanEvent_of_comment (mkCommentEv_shape hmk) (hc a ha)
    · rcases List.mem_filterMap.mp h2 with ⟨a, ha, hmk⟩
      exact cleanEvent_of_review (mkReviewEv_shape hmk) (hr a ha)
  · rcases List.mem_filterMap.mp hmm with ⟨a, ha, hmk⟩
    obtain ⟨hdat, i, hi⟩ := mkCommitEv_shape hmk
    exact cleanEvent_of_commit hdat hi (hm a ha i hi)

theorem step_ok_of_clean (ctx : Ctx) (past : List Event) (e : Event)
    (he : CleanEvent e) (hpast : ∀ a ∈ past, CleanEvent a) :
    ∃ res, step ctx past e = .ok res := by
  cases hd : e.data with
  | comment c => exact ⟨(none, true), by simp only [step, hd]⟩
  | review r => exact ⟨(none, true), by simp only [step, hd]⟩
  | commit m =>
    obtain ⟨i, hi, hdiff⟩ := cleanEvent_commit_elim hd he
    cases hdf : i.diff with
    | null => exact absurd hdf hdiff
    | absent =>
      have hdg : i.diff.getD "" = some "" := by rw [hdf]; rfl
      exact ⟨(none, false), by simp only [step, hd, hi, hdg]; rfl⟩
    | str s =>
      have hdg : i.diff.getD "" = some s := by rw [hdf]; rfl
      by_cases hstrip : pyStrip s = ""
      · exact ⟨(none, false),
          by simp only [step, hd, hi, hdg]; rw [if_pos hstrip]⟩
      · obtain ⟨parts, hparts⟩ :=
          mkPromptParts_ok_of_clean ctx past (i.committedDate.getD "") hpast
        simp only [step, hd, hi, hdg, if_neg hstrip, hparts]
        cases hg : sizeGate ctx.tok ctx.maxContext
            (String.intercalate "\n" parts) (mkCompletion i.oid.get s) with
        | none => exact ⟨_, rfl⟩
        | some pc => exact ⟨_, rfl⟩

theorem runLoop_ok_of_clean (ctx : Ctx) : ∀ (events past : List Event)
    (rows : List Row), (∀ e ∈ events, CleanEvent e) →
    (∀ a ∈ past, CleanEvent a) →
    ∃ out, runLoop ctx events past rows = .ok out := by
  intro events
  induction events with
  | nil => exact fun past rows _ _ => ⟨_, rfl⟩
  | cons e rest ih =>
    intro past rows hev hpast
    obtain ⟨⟨r, app⟩, hstep⟩ :=
      step_ok_of_clean ctx past e (hev e (List.mem_cons_self e rest)) hpast
    have hev' : ∀ a ∈ rest, CleanEvent a :=
      fun a ha => hev a (List.mem_cons_of_mem e ha)
    have hpast' : ∀ a ∈ (if app then past ++ [e] else past), CleanEvent a := by
      intro a ha
      cases app with
      | false => exact hpast a ha
      | true =>
        rcases List.mem_append.mp ha with ha | ha
        · exact hpast a ha
        · rcases List.mem_singleton.mp ha with rfl
          exact hev a (List.mem_cons_self a rest)
    cases r with
    | none =>
      obtain ⟨out, hout⟩ := ih (if app then past ++ [e] else past) rows
        hev' hpast'
      exact ⟨out, by simp only [runLoop, hstep]; exact hout⟩
    | some row =>
      obtain ⟨out, hout⟩ := ih (if app then past ++ [e] else past)
        (rows ++ [row]) hev' hpast'
      exact ⟨out, by simp only [runLoop, hstep]; exact hout⟩

/-- Counterexample for C4.  A comment whose `body` is JSON null, followed
by a commit with a diff: rendering the comment calls `.strip()` on
`None`, which raises `AttributeError` and aborts the whole run — the
malformation does not degrade to omission. -/
theorem nullBody_raises_cex :
    generate exCtx exNLookup [exNullComment] [] [exCommitAfterNull] =
      .error "AttributeError" := rfl

/-- C4 (amended).  For input PR records shaped per the external-interface
shapes, synthesis never raises as long as no comment body, review body,
or attached diff value is JSON null: absent fields and empty strings all
degrade to omission of that piece of content.  A null body (or null diff
value), however, reaches `.strip()` and raises, aborting the run. -/
theorem synth_no_raise_on_nonnull (ctx : Ctx)
    (lookup : String → Option String) (comments : List CommentRec)
    (reviews : List ReviewRec) (commitsMeta : List CommitRec)
    (hc : ∀ c ∈ comments, c.body ≠ PyStr.null)
    (hr : ∀ r ∈ reviews, r.body ≠ PyStr.null)
    (hm : ∀ m ∈ commitsMeta, ∀ i, m.commit = some i → i.diff ≠ PyStr.null) :
    ∃ rows, generate ctx lookup comments reviews commitsMeta = .ok rows := by
  have hm' := attachDiffs_nonnull lookup commitsMeta hm
  have hclean := clean_of_buildEvents comments reviews
    (attachDiffs lookup commitsMeta) hc hr hm'
  obtain ⟨⟨rows, past⟩, hout⟩ := runLoop_ok_of_clean ctx
    (buildEvents comments reviews (attachDiffs lookup commitsMeta)) [] []
    hclean (fun a ha => absurd ha (List.not_mem_nil a))
  exact ⟨rows, by unfold generate; rw [hout]; rfl⟩

/-- Witness for C4's amended theorem, on the three-commit scenario. -/
theorem synth_no_raise_witness :
    ∃ rows, generate exCtx exLookup [exComment] [] [exCommitA, exCommitB, exCommitC] =
      .ok rows := by
  apply synth_no_raise_on_nonnull
  · intro c hc
    simp only [List.mem_singleton] at hc
    subst hc
    decide
  · intro r hr
    exact absurd hr (List.not_mem_nil r)
  · intro m hmem i hi
    simp only [List.mem_cons, List.not_mem_nil, or_false] at hmem
    rcases hmem with rfl | rfl | rfl <;> (cases hi; decide)

/-- C7.  When a boundary commit `P` exists in the history buffer (and, as
the loop invariant guarantees for buffered commits, `P`'s diff is
non-empty), the rendered previous-commit block is prepended ahead of the
segment renderings exactly when `P`'s diff is non-empty and `P`'s
recorded timestamp is present and precedes the current commit's present
timestamp; when either timestamp is missing, or they are equal or out of
order, the block is omitted while the segment events are still rendered
unchanged. -/
theorem prevBlock_exact (ctx : Ctx) (past : List Event) (P : Event)
    (seg : List Event) (segParts : List String) (cd : Option String)
    (hsplit : splitAtLastCommit past = (some P, seg))
    (hseg : renderSeg seg = .ok segParts)
    (hdiff : pyStrip (((prevInfoOf P).diff.getD "").getD "") ≠ "") :
    mkPromptParts ctx past cd =
      .ok (headerParts ctx ++
        (if pyStrip (((prevInfoOf P).diff.getD "").getD "") ≠ ""
            ∧ pyTruthy ((prevInfoOf P).committedDate.getD "") = true
            ∧ pyTruthy cd = true
            ∧ strLt (((prevInfoOf P).committedDate.getD "").getD "")
                (cd.getD "") = true
         then [prevBlockString (prevInfoOf P)] else []) ++ segParts) := by
  have hpb : prevBlockParts (some P) cd =
      (if pyStrip (((prevInfoOf P).diff.getD "").getD "") ≠ ""
          ∧ pyTruthy ((prevInfoOf P).committedDate.getD "") = true
          ∧ pyTruthy cd = true
          ∧ strLt (((prevInfoOf P).committedDate.getD "").getD "")
              (cd.getD "") = true
       then [prevBlockString (prevInfoOf P)] else []) := by
    simp only [prevBlockParts]
    by_cases h1 : pyTruthy ((prevInfoOf P).committedDate.getD "") = true
    · by_cases h2 : pyTruthy cd = true
      · by_cases h3 : strLt (((prevInfoOf P).committedDate.getD "").getD "")
            (cd.getD "") = true
        · simp [h1, h2, h3, hdiff]
        · simp [h1, h2, h3]
      · simp [h1, h2]
    · simp [h1]
  simp only [mkPromptParts, hsplit, hseg, hpb]

/-- Witness for C7: with a one-commit history, the block for commit `A`
is prepended ahead of the (empty) segment. -/
theorem prevBlock_exact_witness :
    mkPromptParts exCtx [⟨"1", .commit exCommitA'⟩] (some "4") =
      .ok ["PR #1: T", "Body: B", "Last commit A â€“ mA\nDiff:\ndA"] :=
  prevBlock_exact exCtx [⟨"1", .commit exCommitA'⟩] ⟨"1", .commit exCommitA'⟩
    [] [] (some "4") rfl rfl (by decide)

theorem step_ok_cases (ctx : Ctx) (past : List Event) (e : Event)
    {r : Option Row} {app : Bool} (h : step ctx past e = .ok (r, app)) :
    (e.isCommit = false → r = none ∧ app = true)
    ∧ (e.isCommit = true →
        (app = false → r = none)
        ∧ (app = true → (∃ row, r = some row) ∧ pyStrip (diffOfEv e) ≠ "")) := by
  cases hd : e.data with
  | comment c =>
    simp only [step, hd] at h
    cases h
    constructor
    · intro _
      exact ⟨rfl, rfl⟩
    · intro hc
      simp [Event.isCommit, hd] at hc
  | review rv =>
    simp only [step, hd] at h
    cases h
    constructor
    · intro _
      exact ⟨rfl, rfl⟩
    · intro hc
      simp [Event.isCommit, hd] at hc
  | commit m =>
    constructor
    · intro hc
      simp [Event.isCommit, hd] at hc
    · intro _
      simp only [step, hd] at h
      cases hm : m.commit with
      | none =>
        simp only [hm] at h
        cases h
      | some i =>
        simp only [hm] at h
        cases hdf : i.diff.getD "" with
        | none =>
          simp only [hdf] at h
          cases h
        | some dt =>
          simp only [hdf] at h
          have hde : diffOfEv e = dt := by
            simp only [diffOfEv, hd, hm, hdf, Option.getD]
          by_cases hstp : pyStrip dt = ""
          · rw [if_pos hstp] at h
            cases h
            constructor
            · intro _
              rfl
            · intro happ
              cases happ
          · rw [if_neg hstp] at h
            cases hparts : mkPromptParts ctx past (i.committedDate.getD "") with
            | error msg =>
              simp only [hparts] at h
              cases h
            | ok parts =>
              simp only [hparts] at h
              cases hg : sizeGate ctx.tok ctx.maxContext
                  (String.intercalate "\n" parts) (mkCompletion i.oid.get dt) with
              | none =>
                simp only [hg] at h
                cases h
                constructor
                · intro _
                  rfl
                · intro happ
                  cases happ
              | some pc =>
                simp only [hg] at h
                cases h
                constructor
                · intro hfalse
                  cases hfalse
                · intro _
                  refine ⟨⟨_, rfl⟩, ?_⟩
                  rw [hde]
                  exact hstp

/-- C9.  Invariant of the per-PR synthesis loop: starting from a buffer
whose commit entries all have non-empty stripped diff and whose commit
count equals the emitted-row count, the loop preserves both — so in the
final buffer every commit entry has a non-empty diff and the number of
buffered commits equals the number of emitted examples (each buffered
commit emitted exactly one).  Commits skipped by the diff gate or either
size check are never appended, so a later boundary search passes over
them to the most recent emitting commit. -/
theorem history_buffer_invariant (ctx : Ctx) : ∀ (events past : List Event)
    (rows : List Row),
    (∀ e ∈ past, e.isCommit = true → pyStrip (diffOfEv e) ≠ "") →
    past.countP Event.isCommit = rows.length →
    ∀ out, runLoop ctx events past rows = .ok out →
      (∀ e ∈ out.2, e.isCommit = true → pyStrip (diffOfEv e) ≠ "")
      ∧ out.2.countP Event.isCommit = out.1.length := by
  intro events
  induction events with
  | nil =>
    intro past rows hgood hcnt out hrun
    simp only [runLoop] at hrun
    cases hrun
    exact ⟨hgood, hcnt⟩
  | cons e rest ih =>
    intro past rows hgood hcnt out hrun
    simp only [runLoop] at hrun
    cases hstep : step ctx past e with
    | error msg =>
      simp only [hstep] at hrun
      cases hrun
    | ok ra =>
      obtain ⟨r, app⟩ := ra
      simp only [hstep] at hrun
      have hchar := step_ok_cases ctx past e hstep
      cases hc : e.isCommit with
      | false =>
        obtain ⟨hr, happ⟩ := hchar.1 hc
        subst hr
        subst happ
        refine ih (past ++ [e]) rows ?_ ?_ out hrun
        · intro a ha hca
          rcases List.mem_append.mp ha with ha | ha
          · exact hgood a ha hca
          · rcases List.mem_singleton.mp ha with rfl
            rw [hc] at hca
            cases hca
        · simp [List.countP_append, List.countP_cons, hc, hcnt]
      | true =>
        cases happv : app with
        | false =>
          have hr : r = none := (hchar.2 hc).1 happv
          subst hr
          subst happv
          exact ih past rows hgood hcnt out hrun
        | true =>
          obtain ⟨⟨row, hrow⟩, hdiff⟩ := (hchar.2 hc).2 happv
          subst hrow
          subst happv
          refine ih (past ++ [e]) (rows ++ [row]) ?_ ?_ out hrun
          · intro a ha hca
            rcases List.mem_append.mp ha with ha | ha
            · exact hgood a ha hca
            · rcases List.mem_singleton.mp ha with rfl
              exact hdiff
          · simp [List.countP_append, List.countP_cons, hc, hcnt]

/-- Witness for C9, on the three-commit scenario: the final buffer holds
exactly the two emitting commits (each with non-empty diff) and the
comment; its commit count equals the number of emitted rows. -/
theorem history_buffer_invariant_witness :
    (∀ e ∈ exPast, e.isCommit = true → pyStrip (diffOfEv e) ≠ "")
    ∧ exPast.countP Event.isCommit = ([exRow1, exRow2] : List Row).length :=
  history_buffer_invariant exCtx
    (buildEvents [exComment] [] (attachDiffs exLookup
      [exCommitA, exCommitB, exCommitC])) [] []
    (fun a ha => absurd ha (List.not_mem_nil a)) rfl
    ([exRow1, exRow2], exPast) rfl
